import Mathlib

/-!
Verification of the roaming coordination engine of
`example/bt_roaming/central.py` (SiliconLabs/pybgapi-examples).

The Python source is shallowly embedded: dictionaries become association
lists that keep insertion order (Python 3.7+ dicts iterate in insertion
order, which `max` and the handover fold depend on), RSSI values become
exact rationals, exceptions become `Option`/explicit `raised` flags, and
the concurrent parts (connection bookkeeping, the scan/analysis lock, the
bonding-flush debounce loop) become step relations or discrete-time trace
functions.
-/

namespace Roaming

/-- `SL_BT_CONFIG_MAX_CONNECTIONS` from central.py line 52. -/
def SL_BT_CONFIG_MAX_CONNECTIONS : Nat := 4

/-- Embedding of the `Connection` dataclass (central.py lines 74-84).
`opened` abstracts the `threading.Event`: `true` once the open event fired.
Bonding data is a map from material type to byte blob. -/
structure Connection where
  address : String
  address_type : Nat
  bonding_data : List (Nat × List Nat)
  opened : Bool
  rssi : Option ℚ
  service : Option Nat
  characteristic : Option Nat
  notification : Bool
  deriving Repr, DecidableEq

/-- `AccessPoint.connections`: Python dict from connection handle to
`Connection`, embedded as an insertion-ordered association list. -/
abbrev ConnMap := List (Nat × Connection)

/-- `AccessPoint.connectable` (central.py lines 182-185): a new connection
can be established iff the map holds strictly fewer than
`SL_BT_CONFIG_MAX_CONNECTIONS` entries. -/
def connectable (m : ConnMap) : Bool :=
  m.length < SL_BT_CONFIG_MAX_CONNECTIONS

/-- Radio commands an access point issues to its NCP target. -/
inductive RadioCmd where
  | openCmd (address : String) (address_type : Nat)
  | closeCmd (conn_handle : Nat)
  deriving Repr, DecidableEq

/-- Result of `AccessPoint.connect`: whether the `RuntimeError` was raised,
the connection map after the call, and the radio commands issued. -/
structure ConnectResult where
  raised : Bool
  conns : ConnMap
  cmds : List RadioCmd
  deriving Repr, DecidableEq

/-- `AccessPoint.connect` (central.py lines 187-206).  If the map is full
the call raises `RuntimeError("no more connection possible")` before any
radio command; otherwise `sl_bt_connection_open` is issued (the fresh
handle it returns is the parameter `handle`), the entry is inserted, and —
if the opened event does not fire within `CONNECTION_TIMEOUT`, which the
parameter `openedInTime` records — a `disconnect` is issued. -/
def AccessPoint.connect (m : ConnMap) (handle : Nat) (address : String)
    (address_type : Nat) (bonding_data : List (Nat × List Nat))
    (rssi : Option ℚ) (openedInTime : Bool) : ConnectResult :=
  if connectable m then
    { raised := false
      conns := m ++ [(handle,
        { address := address
          address_type := address_type
          bonding_data := bonding_data
          opened := openedInTime
          rssi := rssi
          service := none
          characteristic := none
          notification := false })]
      cmds := .openCmd address address_type ::
        (if openedInTime then [] else [.closeCmd handle]) }
  else
    { raised := true, conns := m, cmds := [] }

/-- `bt_evt_connection_closed` (central.py line 305): `del
self.connections[evt.connection]`. -/
def closedEvent (m : ConnMap) (handle : Nat) : ConnMap :=
  m.filter (fun p => p.1 ≠ handle)

/-- In-place mutation of one connection record (rssi updates, GATT handle
updates, the opened flag): the key set and the length are untouched. -/
def updateField (m : ConnMap) (handle : Nat) (f : Connection → Connection) :
    ConnMap :=
  m.map (fun p => if p.1 = handle then (p.1, f p.2) else p)

/-- All events that mutate one access point's `connections` dict: a call of
`AccessPoint.connect` (whatever its arguments; a raising call leaves the
map unchanged), the closed event's deletion, and the per-field updates done
by the other event callbacks. -/
inductive APStep : ConnMap → ConnMap → Prop where
  | connect (m : ConnMap) (handle : Nat) (address : String)
      (address_type : Nat) (bonding_data : List (Nat × List Nat))
      (rssi : Option ℚ) (openedInTime : Bool) :
      APStep m (AccessPoint.connect m handle address address_type
        bonding_data rssi openedInTime).conns
  | closed (m : ConnMap) (handle : Nat) : APStep m (closedEvent m handle)
  | update (m : ConnMap) (handle : Nat) (f : Connection → Connection) :
      APStep m (updateField m handle f)

/-- Reachable connection maps: `self.connections = dict()` initially, then
any sequence of steps. -/
inductive APReach : ConnMap → Prop where
  | init : APReach []
  | step {m m' : ConnMap} : APReach m → APStep m m' → APReach m'

theorem length_connect_conns (m : ConnMap) (handle : Nat) (address : String)
    (address_type : Nat) (bd : List (Nat × List Nat)) (rssi : Option ℚ)
    (opened : Bool) :
    (AccessPoint.connect m handle address address_type bd rssi
      opened).conns.length ≤ max m.length SL_BT_CONFIG_MAX_CONNECTIONS := by
  unfold AccessPoint.connect
  by_cases h : connectable m
  · simp only [h, if_true]
    have : m.length < SL_BT_CONFIG_MAX_CONNECTIONS := by
      simpa [connectable] using h
    simp [List.length_append]
    omega
  · simp [h]

theorem length_closedEvent_le (m : ConnMap) (handle : Nat) :
    (closedEvent m handle).length ≤ m.length :=
  List.length_filter_le _ m

theorem length_updateField (m : ConnMap) (handle : Nat)
    (f : Connection → Connection) :
    (updateField m handle f).length = m.length := by
  simp [updateField]

/-- C2. Capacity invariant: every reachable connection map of an access
point holds at most `SL_BT_CONFIG_MAX_CONNECTIONS` entries, because
`connect` refuses (raises) instead of inserting when the map is full and
deletions and field updates never grow the map. -/
theorem capacity_invariant (m : ConnMap) (h : APReach m) :
    m.length ≤ SL_BT_CONFIG_MAX_CONNECTIONS := by
  induction h with
  | init => simp
  | step _ s ih =>
    cases s with
    | connect handle address address_type bd rssi opened =>
      exact le_trans (length_connect_conns _ _ _ _ _ _ _) (max_le ih le_rfl)
    | closed handle =>
      exact le_trans (length_closedEvent_le _ _) ih
    | update handle f =>
      exact le_of_le_of_eq (le_of_eq (length_updateField _ _ _)) rfl |>.trans ih

/-- Witness for C2: a concrete reachable map (one successful connect from
the empty map) satisfies the capacity bound. -/
theorem capacity_invariant_witness :
    (AccessPoint.connect [] 1 "aa" 0 [] none true).conns.length ≤
      SL_BT_CONFIG_MAX_CONNECTIONS :=
  capacity_invariant _ (APReach.step APReach.init
    (APStep.connect [] 1 "aa" 0 [] none true))

/-- C10. `AccessPoint.connect` on a full map raises `RuntimeError` before
issuing any radio command and leaves the connection map unchanged; the
raising branch is unreachable whenever `connectable` held just before the
call. -/
theorem connect_full_raises_atomically (m : ConnMap) (handle : Nat)
    (address : String) (address_type : Nat) (bd : List (Nat × List Nat))
    (rssi : Option ℚ) (opened : Bool)
    (hfull : m.length = SL_BT_CONFIG_MAX_CONNECTIONS) :
    AccessPoint.connect m handle address address_type bd rssi opened =
      { raised := true, conns := m, cmds := [] } ∧
    (∀ (m' : ConnMap), connectable m' = true →
      (AccessPoint.connect m' handle address address_type bd rssi
        opened).raised = false) := by
  constructor
  · unfold AccessPoint.connect
    have : ¬ connectable m := by simp [connectable, hfull]
    simp [this]
  · intro m' hc
    unfold AccessPoint.connect
    simp [hc]

/-- Witness for C10 at a concrete full map. -/
theorem connect_full_raises_atomically_witness :
    AccessPoint.connect
        [(1, ⟨"a", 0, [], true, none, none, none, false⟩),
         (2, ⟨"b", 0, [], true, none, none, none, false⟩),
         (3, ⟨"c", 0, [], true, none, none, none, false⟩),
         (4, ⟨"d", 0, [], true, none, none, none, false⟩)]
        5 "e" 0 [] none true =
      { raised := true
        conns := [(1, ⟨"a", 0, [], true, none, none, none, false⟩),
                  (2, ⟨"b", 0, [], true, none, none, none, false⟩),
                  (3, ⟨"c", 0, [], true, none, none, none, false⟩),
                  (4, ⟨"d", 0, [], true, none, none, none, false⟩)]
        cmds := [] } := by
  have h := connect_full_raises_atomically
    [(1, ⟨"a", 0, [], true, none, none, none, false⟩),
     (2, ⟨"b", 0, [], true, none, none, none, false⟩),
     (3, ⟨"c", 0, [], true, none, none, none, false⟩),
     (4, ⟨"d", 0, [], true, none, none, none, false⟩)] 5 "e" 0 [] none true
    rfl
  exact h.1

/-!
## Handover analysis (`NetworkCoordinator.analyze_connection`)

`analyze_connection(ap_id, conn_handle, rssi)` (central.py lines 472-513)
collects smoothed analyzer RSSI values per access point, then folds over
them starting from `best_rssi = rssi`, `best_ap = ap_id`, replacing the
best whenever a value is strictly above both the current best and the
configured `rssi_threshold`.  If the best access point is still the
current one, nothing happens; otherwise it disconnects the current
connection and connects on the best access point.
-/

/-- Actions `analyze_connection` performs on the network. -/
inductive HandoverAction where
  | hDisconnect (ap_id : Nat) (conn_handle : Nat)
  | hConnect (ap_id : Nat)
  deriving Repr, DecidableEq

/-- The best-AP fold of central.py lines 492-498: iterate over the
analyzer results in insertion order starting from the current connection,
taking a new best only when the value is strictly greater than both the
running best and the threshold. -/
def bestOf (ap_id : Nat) (rssi threshold : ℚ)
    (samples : List (Nat × ℚ)) : Nat × ℚ :=
  samples.foldl
    (fun best p => if p.2 > best.2 ∧ p.2 > threshold then p else best)
    (ap_id, rssi)

/-- `analyze_connection` as the list of disconnect/connect actions it
issues, given the smoothed analyzer results `samples` (central.py lines
488-513).  An empty result dict — which also covers the case that no other
connectable access point was available — returns without any action. -/
def analyze_connection (ap_id conn_handle : Nat) (rssi threshold : ℚ)
    (samples : List (Nat × ℚ)) : List HandoverAction :=
  if samples.isEmpty then []
  else
    let best := bestOf ap_id rssi threshold samples
    if best.1 = ap_id then []
    else [.hDisconnect ap_id conn_handle, .hConnect best.1]

theorem bestOf_fold (threshold : ℚ) (samples : List (Nat × ℚ)) :
    ∀ acc : Nat × ℚ,
      (samples.foldl
          (fun best p => if p.2 > best.2 ∧ p.2 > threshold then p else best)
          acc = acc ∨
        samples.foldl
          (fun best p => if p.2 > best.2 ∧ p.2 > threshold then p else best)
          acc ∈ samples) ∧
      acc.2 ≤ (samples.foldl
          (fun best p => if p.2 > best.2 ∧ p.2 > threshold then p else best)
          acc).2 ∧
      (∀ p ∈ samples, p.2 > threshold →
        p.2 ≤ (samples.foldl
          (fun best p => if p.2 > best.2 ∧ p.2 > threshold then p else best)
          acc).2) := by
  induction samples with
  | nil => intro acc; simp
  | cons p rest ih =>
    intro acc
    simp only [List.foldl_cons]
    by_cases hc : p.2 > acc.2 ∧ p.2 > threshold
    · obtain ⟨hmem, hle, hmax⟩ := ih p
      rw [if_pos hc]
      refine ⟨?_, le_trans (le_of_lt hc.1) hle, ?_⟩
      · rcases hmem with h | h
        · exact Or.inr (by simp [h])
        · exact Or.inr (List.mem_cons_of_mem _ h)
      · intro q hq hqth
        rcases List.mem_cons.mp hq with h | h
        · exact h ▸ hle
        · exact hmax q h hqth
    · obtain ⟨hmem, hle, hmax⟩ := ih acc
      rw [if_neg hc]
      refine ⟨?_, hle, ?_⟩
      · rcases hmem with h | h
        · exact Or.inl h
        · exact Or.inr (List.mem_cons_of_mem _ h)
      · intro q hq hqth
        rcases List.mem_cons.mp hq with h | h
        · subst h
          rcases not_and_or.mp hc with h' | h'
          · exact le_trans (le_of_not_lt h') hle
          · exact absurd hqth h'
        · exact hmax q h hqth

theorem bestOf_of_no_qualifier (ap_id : Nat) (rssi threshold : ℚ)
    (samples : List (Nat × ℚ))
    (h : ∀ p ∈ samples, ¬(p.2 > rssi ∧ p.2 > threshold)) :
    bestOf ap_id rssi threshold samples = (ap_id, rssi) := by
  unfold bestOf
  induction samples with
  | nil => rfl
  | cons p rest ih =>
    simp only [List.foldl_cons]
    rw [if_neg (h p (List.mem_cons_self p rest))]
    exact ih (fun q hq => h q (List.mem_cons_of_mem _ hq))

/-- C3. Handover trigger: with the smoothed analyzer results `samples`
(all from access points other than the current one), if some sample is
strictly above both the current RSSI and the threshold then
`analyze_connection` issues exactly a disconnect of the old connection
followed by one connect on the access point holding the best smoothed
sample; if no sample qualifies (in particular if no sample was collected),
it issues no action at all. -/
theorem analyze_connection_spec (ap_id conn_handle : Nat)
    (rssi threshold : ℚ) (samples : List (Nat × ℚ))
    (hkeys : ∀ p ∈ samples, p.1 ≠ ap_id) :
    ((∃ p ∈ samples, p.2 > rssi ∧ p.2 > threshold) →
      ∃ b ∈ samples,
        analyze_connection ap_id conn_handle rssi threshold samples =
          [.hDisconnect ap_id conn_handle, .hConnect b.1] ∧
        b.2 > rssi ∧ b.2 > threshold ∧ ∀ q ∈ samples, q.2 ≤ b.2) ∧
    ((¬ ∃ p ∈ samples, p.2 > rssi ∧ p.2 > threshold) →
      analyze_connection ap_id conn_handle rssi threshold samples = []) := by
  constructor
  · rintro ⟨p, hp, hpr, hpth⟩
    obtain ⟨hmem, hle, hmax⟩ := bestOf_fold threshold samples (ap_id, rssi)
    set b := bestOf ap_id rssi threshold samples with hb
    have hbfold : b = samples.foldl
        (fun best p => if p.2 > best.2 ∧ p.2 > threshold then p else best)
        (ap_id, rssi) := rfl
    rw [← hbfold] at hmem hle hmax
    have hbval : p.2 ≤ b.2 := hmax p hp hpth
    have hbr : b.2 > rssi := lt_of_lt_of_le hpr hbval
    have hbth : b.2 > threshold := lt_of_lt_of_le hpth hbval
    have hbmem : b ∈ samples := by
      rcases hmem with h | h
      · exact absurd (congrArg Prod.snd h) (by simp; exact ne_of_gt hbr)
      · exact h
    refine ⟨b, hbmem, ?_, hbr, hbth, ?_⟩
    · unfold analyze_connection
      have hne : ¬ samples.isEmpty := by
        cases samples with
        | nil => cases hp
        | cons q rest => simp
      rw [if_neg hne, ← hb, if_neg (hkeys b hbmem)]
    · intro q hq
      by_cases hqth : q.2 > threshold
      · exact hmax q hq hqth
      · exact le_trans (le_of_not_lt hqth) (le_of_lt hbth)
  · intro hnone
    unfold analyze_connection
    by_cases hne : samples.isEmpty
    · rw [if_pos hne]
    · rw [if_neg hne,
        bestOf_of_no_qualifier ap_id rssi threshold samples
          (fun p hp hq => hnone ⟨p, hp, hq⟩)]
      simp

/-- Witness for C3 at concrete inputs: with current RSSI -80 dBm,
threshold -62 dBm and samples AP1 ↦ -60, AP2 ↦ -65, the handover
disconnects on AP0 and connects on AP1; with threshold -60 and the single
sample AP1 ↦ -65 nothing happens. -/
theorem analyze_connection_spec_witness :
    analyze_connection 0 7 (-80 : ℚ) (-62) [(1, -60), (2, -65)] =
      [.hDisconnect 0 7, .hConnect 1] ∧
    analyze_connection 0 7 (-80 : ℚ) (-60) [(1, -65)] = [] := by
  constructor
  · obtain ⟨b, hb, heq, hbr, hbth, -⟩ :=
      (analyze_connection_spec 0 7 (-80 : ℚ) (-62) [(1, -60), (2, -65)]
        (by decide)).1 ⟨(1, -60), by simp, by norm_num⟩
    rcases List.mem_cons.mp hb with h | h
    · rw [heq, h]
    · rw [List.mem_singleton] at h
      rw [h] at hbth
      norm_num at hbth
  · exact (analyze_connection_spec 0 7 (-80 : ℚ) (-60) [(1, -65)]
      (by decide)).2 (by rintro ⟨p, hp, h1, h2⟩; simp at hp; rw [hp] at h2; norm_num at h2)

/-!
## Python dict primitives

Python 3.7+ dicts keep insertion order; assignment to an existing key
overwrites the value in place, assignment to a fresh key appends at the
end, and iteration (`max`, `for ... in ...items()`) follows that order.
-/

/-- Dict lookup `d.get(k)` / `d[k]`. -/
def lookupA {α β : Type} [DecidableEq α] (k : α) : List (α × β) → Option β
  | [] => none
  | p :: rest => if p.1 = k then some p.2 else lookupA k rest

/-- Dict assignment `d[k] = v`: overwrite in place, or append at the end. -/
def setA {α β : Type} [DecidableEq α] (k : α) (v : β) :
    List (α × β) → List (α × β)
  | [] => [(k, v)]
  | p :: rest => if p.1 = k then (k, v) :: rest else p :: setA k v rest

theorem lookupA_setA_self {α β : Type} [DecidableEq α] (k : α) (v : β)
    (l : List (α × β)) : lookupA k (setA k v l) = some v := by
  induction l with
  | nil => simp [setA, lookupA]
  | cons p rest ih =>
    by_cases h : p.1 = k
    · simp [setA, h, lookupA]
    · simp [setA, h, lookupA, ih]

theorem lookupA_setA_ne {α β : Type} [DecidableEq α] {k k' : α} (v : β)
    (l : List (α × β)) (h : k' ≠ k) :
    lookupA k' (setA k v l) = lookupA k' l := by
  have hkk : ¬ k = k' := fun hk => h hk.symm
  induction l with
  | nil => simp [setA, lookupA, hkk]
  | cons p rest ih =>
    by_cases hp : p.1 = k
    · simp [setA, hp, lookupA, hkk]
    · simp only [setA, hp, if_false, lookupA]
      by_cases hp' : p.1 = k'
      · simp [hp']
      · simp [hp', ih]

/-!
## Discovery aggregation (`NetworkCoordinator.update_scan_result` / `scan`)
-/

/-- Peers are keyed by the `(address, address_type)` tuple carried in
`ApEventScanRssi.address`. -/
abbrev Addr := String × Nat

/-- `self._scan_result`: peer tuple → (access point id → RSSI). -/
abbrev ScanResult := List (Addr × List (Nat × ℤ))

/-- One discovery report `ApEventScanRssi`: peer tuple, access point id,
RSSI. -/
abbrev ScanReport := Addr × Nat × ℤ

/-- `NetworkCoordinator.update_scan_result` (central.py lines 465-470):
create the inner dict if the peer is new, then overwrite (never average)
the per-access-point RSSI. -/
def update_scan_result (sr : ScanResult) (address : Addr) (ap_id : Nat)
    (rssi : ℤ) : ScanResult :=
  let inner := (lookupA address sr).getD []
  setA address (setA ap_id rssi inner) sr

/-- The scan-cycle map built from a cycle's reports in arrival order,
starting from the cleared map (central.py line 433). -/
def processScan (reports : List ScanReport) : ScanResult :=
  reports.foldl (fun sr r => update_scan_result sr r.1 r.2.1 r.2.2) []

/-- `max(result, key=result.get)` of central.py line 458: the first entry
with the maximal RSSI value, in dict insertion order. -/
def selectAp (result : List (Nat × ℤ)) : Option (Nat × ℤ) :=
  result.foldl
    (fun best p =>
      match best with
      | none => some p
      | some q => if p.2 > q.2 then some p else some q)
    none

/-- Value stored for `(address, ap_id)` in the scan map. -/
def scanLookup (sr : ScanResult) (address : Addr) (ap_id : Nat) : Option ℤ :=
  match lookupA address sr with
  | none => none
  | some inner => lookupA ap_id inner

/-- The RSSI of the last report for `(address, ap_id)`, if any. -/
def lastRssi (reports : List ScanReport) (address : Addr) (ap_id : Nat) :
    Option ℤ :=
  ((reports.filter (fun r => r.1 = address ∧ r.2.1 = ap_id)).map
    (fun r => r.2.2)).getLast?

theorem scanLookup_update (sr : ScanResult) (a a' : Addr) (i i' : Nat)
    (r : ℤ) :
    scanLookup (update_scan_result sr a i r) a' i' =
      if a' = a ∧ i' = i then some r else scanLookup sr a' i' := by
  unfold scanLookup update_scan_result
  by_cases ha : a' = a
  · subst ha
    rw [lookupA_setA_self]
    by_cases hi : i' = i
    · subst hi
      simp [lookupA_setA_self]
    · simp only [hi, and_false, if_false]
      rw [lookupA_setA_ne _ _ hi]
      cases h : lookupA a' sr with
      | none => simp [h, lookupA]
      | some inner => simp [h]
  · simp only [ha, false_and, if_false]
    rw [lookupA_setA_ne _ _ ha]

theorem processScan_snoc (reports : List ScanReport) (r : ScanReport) :
    processScan (reports ++ [r]) =
      update_scan_result (processScan reports) r.1 r.2.1 r.2.2 := by
  unfold processScan
  rw [List.foldl_append]
  rfl

theorem lastRssi_snoc (reports : List ScanReport) (r : ScanReport)
    (address : Addr) (ap_id : Nat) :
    lastRssi (reports ++ [r]) address ap_id =
      if r.1 = address ∧ r.2.1 = ap_id then some r.2.2
      else lastRssi reports address ap_id := by
  unfold lastRssi
  rw [List.filter_append]
  by_cases h : r.1 = address ∧ r.2.1 = ap_id
  · simp [h]
  · simp [h]

theorem scanLookup_processScan (reports : List ScanReport) (address : Addr)
    (ap_id : Nat) :
    scanLookup (processScan reports) address ap_id =
      lastRssi reports address ap_id := by
  induction reports using List.reverseRecOn with
  | nil => rfl
  | append_singleton reports r ih =>
    rw [processScan_snoc, scanLookup_update, lastRssi_snoc]
    by_cases h : address = r.1 ∧ ap_id = r.2.1
    · rw [if_pos h, if_pos ⟨h.1.symm, h.2.symm⟩]
    · have h' : ¬(r.1 = address ∧ r.2.1 = ap_id) := by
        intro hc; exact h ⟨hc.1.symm, hc.2.symm⟩
      rw [if_neg h, if_neg h', ih]

theorem selectAp_fold (result : List (Nat × ℤ)) :
    ∀ (acc : Option (Nat × ℤ)) (q : Nat × ℤ),
      result.foldl
          (fun best p =>
            match best with
            | none => some p
            | some a => if p.2 > a.2 then some p else some a)
          acc = some q →
      (acc = some q ∨ q ∈ result) ∧
      (∀ a, acc = some a → a.2 ≤ q.2) ∧
      (∀ p ∈ result, p.2 ≤ q.2) := by
  induction result with
  | nil =>
    intro acc q h
    have hq : acc = some q := h
    refine ⟨Or.inl hq, fun a ha => ?_, by simp⟩
    rw [hq] at ha
    injection ha with ha'
    rw [ha']
  | cons p rest ih =>
    intro acc q h
    rw [List.foldl_cons] at h
    cases acc with
    | none =>
      obtain ⟨h1, h2, h3⟩ := ih (some p) q h
      have hpq : p.2 ≤ q.2 := h2 p rfl
      refine ⟨?_, by simp, ?_⟩
      · rcases h1 with h' | h'
        · injection h' with h''
          subst h''
          exact Or.inr (List.mem_cons_self _ _)
        · exact Or.inr (List.mem_cons_of_mem _ h')
      · intro x hx
        rcases List.mem_cons.mp hx with h' | h'
        · exact h' ▸ hpq
        · exact h3 x h'
    | some a =>
      by_cases hpa : p.2 > a.2
      · simp only [hpa, if_true] at h
        obtain ⟨h1, h2, h3⟩ := ih (some p) q h
        have hpq : p.2 ≤ q.2 := h2 p rfl
        refine ⟨?_, ?_, ?_⟩
        · rcases h1 with h' | h'
          · injection h' with h''
            subst h''
            exact Or.inr (List.mem_cons_self _ _)
          · exact Or.inr (List.mem_cons_of_mem _ h')
        · intro a' ha'
          injection ha' with ha''
          rw [← ha'']
          exact le_trans (le_of_lt hpa) hpq
        · intro x hx
          rcases List.mem_cons.mp hx with h' | h'
          · exact h' ▸ hpq
          · exact h3 x h'
      · simp only [hpa, if_false] at h
        obtain ⟨h1, h2, h3⟩ := ih (some a) q h
        have haq : a.2 ≤ q.2 := h2 a rfl
        refine ⟨?_, ?_, ?_⟩
        · rcases h1 with h' | h'
          · exact Or.inl h'
          · exact Or.inr (List.mem_cons_of_mem _ h')
        · intro a' ha'
          injection ha' with ha''
          rw [← ha'']
          exact haq
        · intro x hx
          rcases List.mem_cons.mp hx with h' | h'
          · exact h' ▸ le_trans (le_of_not_lt hpa) haq
          · exact h3 x h'

/-- C4. Discovery aggregation: (i) the scan-cycle map stores, for each
peer and access point, exactly the RSSI of the latest report (overwrite,
never average); (ii) the access point `scan` selects is one whose stored
RSSI is maximal; (iii) on the concrete report sequence
[(P, A1, -60), (P, A2, -50), (P, A1, -55)] the map holds A1 ↦ -55,
A2 ↦ -50 and A2 is selected. -/
theorem discovery_aggregation :
    (∀ (reports : List ScanReport) (address : Addr) (ap_id : Nat),
      scanLookup (processScan reports) address ap_id =
        lastRssi reports address ap_id) ∧
    (∀ (result : List (Nat × ℤ)) (q : Nat × ℤ), selectAp result = some q →
      q ∈ result ∧ ∀ p ∈ result, p.2 ≤ q.2) ∧
    (processScan [(("P", 0), 1, -60), (("P", 0), 2, -50),
        (("P", 0), 1, -55)] =
      [(("P", 0), [(1, -55), (2, -50)])] ∧
    (selectAp [(1, -55), (2, -50)]).map (fun q => q.1) = some 2) := by
  refine ⟨scanLookup_processScan, ?_, by decide, by decide⟩
  intro result q h
  obtain ⟨h1, h2, h3⟩ := selectAp_fold result none q h
  rcases h1 with h' | h'
  · cases h'
  · exact ⟨h', h3⟩

/-- Witness for C4: the last-wins part evaluated on the concrete report
sequence and the argmax part evaluated on the resulting inner map. -/
theorem discovery_aggregation_witness :
    scanLookup
        (processScan [(("P", 0), 1, -60), (("P", 0), 2, -50),
          (("P", 0), 1, -55)]) ("P", 0) 1 =
      lastRssi [(("P", 0), 1, -60), (("P", 0), 2, -50), (("P", 0), 1, -55)]
        ("P", 0) 1 ∧
    (2, -50) ∈ [((1 : Nat), (-55 : ℤ)), (2, -50)] ∧
    ∀ p ∈ [((1 : Nat), (-55 : ℤ)), (2, -50)], p.2 ≤ (-50 : ℤ) :=
  ⟨discovery_aggregation.1 _ _ _,
    discovery_aggregation.2.1 [(1, -55), (2, -50)] (2, -50) (by decide)⟩

/-!
## Analyzer-sample smoothing (`NetworkCoordinator.update_analyzer_result`)
-/

/-- `NetworkCoordinator.update_analyzer_result` (central.py lines 515-524):
the first RSSI value from an access point is stored unchanged; every later
value `s` replaces the stored value `old` by `(old + s) / 2`. -/
def update_analyzer_result (res : List (Nat × ℚ)) (ap_id : Nat) (rssi : ℚ) :
    List (Nat × ℚ) :=
  match lookupA ap_id res with
  | none => setA ap_id rssi res
  | some old => setA ap_id ((old + rssi) / 2) res

/-- `self._analyzer_result` built from the analyzer RSSI events of one
analysis window, in arrival order, starting from the cleared dict
(central.py line 474). -/
def processAnalyzer (evts : List (Nat × ℚ)) : List (Nat × ℚ) :=
  evts.foldl (fun res e => update_analyzer_result res e.1 e.2) []

/-- The smoothed value of a non-empty sample sequence: the left fold of
`fun old s => (old + s) / 2` started at the first sample; `none` for the
empty sequence. -/
def smoothed : List ℚ → Option ℚ
  | [] => none
  | s :: rest => some (rest.foldl (fun old x => (old + x) / 2) s)

theorem processAnalyzer_snoc (evts : List (Nat × ℚ)) (e : Nat × ℚ) :
    processAnalyzer (evts ++ [e]) =
      update_analyzer_result (processAnalyzer evts) e.1 e.2 := by
  unfold processAnalyzer
  rw [List.foldl_append]
  rfl

theorem update_analyzer_first (res : List (Nat × ℚ)) (ap : Nat) (v : ℚ)
    (h : lookupA ap res = none) :
    update_analyzer_result res ap v = setA ap v res := by
  unfold update_analyzer_result
  rw [h]

theorem update_analyzer_later (res : List (Nat × ℚ)) (ap : Nat) (v old : ℚ)
    (h : lookupA ap res = some old) :
    update_analyzer_result res ap v = setA ap ((old + v) / 2) res := by
  unfold update_analyzer_result
  rw [h]

theorem smoothed_snoc (ss : List ℚ) (s x : ℚ) :
    smoothed ((s :: ss) ++ [x]) =
      some ((ss.foldl (fun old y => (old + y) / 2) s + x) / 2) := by
  simp [smoothed, List.foldl_append]

theorem lookupA_processAnalyzer (evts : List (Nat × ℚ)) (ap : Nat) :
    lookupA ap (processAnalyzer evts) =
      smoothed ((evts.filter (fun e => e.1 = ap)).map (fun e => e.2)) := by
  induction evts using List.reverseRecOn with
  | nil => rfl
  | append_singleton evts e ih =>
    rw [processAnalyzer_snoc, List.filter_append, List.map_append]
    by_cases he : e.1 = ap
    · subst he
      have hsing : (([e].filter (fun x => x.1 = e.1)).map (fun x => x.2)) =
          [e.2] := by simp
      rw [hsing]
      cases hf : (evts.filter (fun x => x.1 = e.1)).map (fun x => x.2) with
      | nil =>
        have hl : lookupA e.1 (processAnalyzer evts) = none := by
          rw [ih, hf]; rfl
        rw [update_analyzer_first _ _ _ hl, lookupA_setA_self]
        rfl
      | cons s ss =>
        have hl : lookupA e.1 (processAnalyzer evts) =
            some (ss.foldl (fun old x => (old + x) / 2) s) := by
          rw [ih, hf]; rfl
        rw [update_analyzer_later _ _ _ _ hl, lookupA_setA_self]
        simp [smoothed, List.foldl_append]
    · have hsing : (([e].filter (fun x => x.1 = ap)).map (fun x => x.2)) =
          [] := by simp [he]
      rw [hsing, List.append_nil]
      have hne : ap ≠ e.1 := fun hk => he hk.symm
      cases hl : lookupA e.1 (processAnalyzer evts) with
      | none =>
        rw [update_analyzer_first _ _ _ hl, lookupA_setA_ne _ _ hne, ih]
      | some old =>
        rw [update_analyzer_later _ _ _ _ hl, lookupA_setA_ne _ _ hne, ih]

/-- C5. Exponential smoothing: for every access point whose analyzer
samples within one window are `s :: rest` (in arrival order), the stored
value is the left fold storing the first sample unchanged and combining
each later sample `x` by `(old + x) / 2` — exact rational arithmetic, with
factor one half. -/
theorem analyzer_smoothing (evts : List (Nat × ℚ)) (ap : Nat) (s : ℚ)
    (rest : List ℚ)
    (h : (evts.filter (fun e => e.1 = ap)).map (fun e => e.2) = s :: rest) :
    lookupA ap (processAnalyzer evts) =
      some (rest.foldl (fun old x => (old + x) / 2) s) := by
  rw [lookupA_processAnalyzer, h]
  rfl

/-- Witness for C5: samples -60, -50, -40 from AP 1 (with an interleaved
sample from AP 2) smooth to ((-60 + -50)/2 + -40)/2 = -47.5, not the mean
-50. -/
theorem analyzer_smoothing_witness :
    lookupA 1 (processAnalyzer [(1, -60), (2, -70), (1, -50), (1, -40)]) =
      some (-95 / 2 : ℚ) ∧
    (-95 / 2 : ℚ) ≠ (-60 + -50 + -40) / 3 := by
  constructor
  · have h := analyzer_smoothing [(1, -60), (2, -70), (1, -50), (1, -40)] 1
      (-60) [-50, -40] (by norm_num)
    rw [h]
    norm_num
  · norm_num

/-!
## Bonding database persistence (`save_bonding_db` / `load_bonding_db`)

The database is a dict from peer-address string to a dict from integer
material type to byte blob.  `save_bonding_db` (central.py lines 647-653)
hex-encodes each blob with `bytes.hex()` and hands the structure to
`json.dump`, which renders the integer material-type keys as decimal
strings.  `load_bonding_db` (central.py lines 636-645) returns the empty
dict when the file does not exist, otherwise runs `json.load` and rebuilds
the blobs with `int(key)` / `bytes.fromhex(value)`.  The `json` module is
Python's standard library (external to this repository): it is modelled as
a faithful boundary that round-trips the string/dict structure, so the
embedded `RawDb` below is the JSON object written to and read from disk,
and an unparseable file is represented by `LoadInput.invalidJson`.
Exceptions propagate as `none` — `load_bonding_db` contains no handler
except the `os.path.exists` check.
-/

/-- A byte blob: the list of its byte values. -/
abbrev Blob := List Nat

/-- In-memory bonding database: address → (material type → blob). -/
abbrev BondingDb := List (String × List (Nat × Blob))

/-- The JSON object persisted on disk: address → (decimal key string →
hex value string). -/
abbrev RawDb := List (String × List (List Char × List Char))

/-- Lower-case hex digit for a nibble, as produced by `bytes.hex()`. -/
def nibbleChar (n : Nat) : Char :=
  if n < 10 then Char.ofNat (48 + n) else Char.ofNat (87 + n)

/-- Value of a hex digit as accepted by `bytes.fromhex` (both cases);
`none` on a non-hex character (`ValueError`). -/
def nibbleVal (c : Char) : Option Nat :=
  if 48 ≤ c.toNat ∧ c.toNat ≤ 57 then some (c.toNat - 48)
  else if 97 ≤ c.toNat ∧ c.toNat ≤ 102 then some (c.toNat - 87)
  else if 65 ≤ c.toNat ∧ c.toNat ≤ 70 then some (c.toNat - 55)
  else none

/-- `bytes.hex()`: two lower-case hex digits per byte. -/
def bytesHex : Blob → List Char
  | [] => []
  | b :: rest => nibbleChar (b / 16) :: nibbleChar (b % 16) :: bytesHex rest

/-- `bytes.fromhex`: parse pairs of hex digits; `none` (`ValueError`) on a
non-hex digit or an odd-length string. -/
def bytesFromHex : List Char → Option Blob
  | [] => some []
  | [_] => none
  | c1 :: c2 :: rest =>
    match nibbleVal c1, nibbleVal c2, bytesFromHex rest with
    | some h, some l, some bs => some ((16 * h + l) :: bs)
    | _, _, _ => none

/-- Decimal rendering of a non-negative int key by `json.dump`
(`str(n)`). -/
def natKeyStr (n : Nat) : List Char :=
  if n = 0 then ['0']
  else ((Nat.digits 10 n).map (fun d => Char.ofNat (48 + d))).reverse

/-- Value of one decimal digit; `none` on anything else. -/
def digitVal (c : Char) : Option Nat :=
  if 48 ≤ c.toNat ∧ c.toNat ≤ 57 then some (c.toNat - 48) else none

/-- `int(key)` on a non-negative decimal string; `none` (`ValueError`) on
a malformed string. -/
def parseNatKey (cs : List Char) : Option Nat :=
  if cs.isEmpty then none
  else
    cs.foldl
      (fun acc c =>
        match acc, digitVal c with
        | some a, some d => some (10 * a + d)
        | _, _ => none)
      (some 0)

/-- `save_bonding_db` (central.py lines 647-653): hex-encode every blob;
`json.dump` renders the integer keys as decimal strings. -/
def save_bonding_db (db : BondingDb) : RawDb :=
  db.map (fun p => (p.1, p.2.map (fun q => (natKeyStr q.1, bytesHex q.2))))

/-- Decode one peer's inner dict: `int(key)` and `bytes.fromhex(value)`
on every item (central.py line 644); the first failure propagates. -/
def decodeEntry : List (List Char × List Char) → Option (List (Nat × Blob))
  | [] => some []
  | q :: rest =>
    match parseNatKey q.1, bytesFromHex q.2, decodeEntry rest with
    | some k, some v, some r => some ((k, v) :: r)
    | _, _, _ => none

/-- Decode the whole JSON object (central.py lines 642-645). -/
def decodeDb : RawDb → Option BondingDb
  | [] => some []
  | p :: rest =>
    match decodeEntry p.2, decodeDb rest with
    | some d, some r => some ((p.1, d) :: r)
    | _, _ => none

/-- What `load_bonding_db` finds on disk: no file, a file `json.load`
cannot parse, or a parsed JSON object. -/
inductive LoadInput where
  | missing
  | invalidJson
  | parsed (raw : RawDb)

/-- `load_bonding_db` (central.py lines 636-645): the empty dict when the
file is missing; otherwise `json.load` and the per-item decoding, whose
exceptions propagate uncaught (`none`). -/
def load_bonding_db : LoadInput → Option BondingDb
  | .missing => some []
  | .invalidJson => none
  | .parsed raw => decodeDb raw

/-- Every byte of every blob is an actual byte value. -/
def WellFormedDb (db : BondingDb) : Prop :=
  ∀ p ∈ db, ∀ q ∈ p.2, ∀ b ∈ q.2, b < 256

theorem nibbleVal_nibbleChar : ∀ n < 16, nibbleVal (nibbleChar n) = some n := by
  decide

theorem bytesFromHex_bytesHex (bs : Blob) (h : ∀ b ∈ bs, b < 256) :
    bytesFromHex (bytesHex bs) = some bs := by
  induction bs with
  | nil => rfl
  | cons b rest ih =>
    have hb : b < 256 := h b (List.mem_cons_self _ _)
    have h1 : nibbleVal (nibbleChar (b / 16)) = some (b / 16) :=
      nibbleVal_nibbleChar _ (by omega)
    have h2 : nibbleVal (nibbleChar (b % 16)) = some (b % 16) :=
      nibbleVal_nibbleChar _ (by omega)
    have h3 : bytesFromHex (bytesHex rest) = some rest :=
      ih (fun x hx => h x (List.mem_cons_of_mem _ hx))
    simp only [bytesHex, bytesFromHex, h1, h2, h3]
    have : 16 * (b / 16) + b % 16 = b := by omega
    rw [this]

theorem digitVal_digitChar : ∀ d < 10,
    digitVal (Char.ofNat (48 + d)) = some d := by
  decide

theorem parse_fold_digits (ds : List Nat) :
    ∀ a : Nat, (∀ d ∈ ds, d < 10) →
      (ds.map (fun d => Char.ofNat (48 + d))).foldl
          (fun acc c =>
            match acc, digitVal c with
            | some a, some d => some (10 * a + d)
            | _, _ => none)
          (some a) =
        some (ds.foldl (fun a d => 10 * a + d) a) := by
  induction ds with
  | nil => intro a _; rfl
  | cons d rest ih =>
    intro a hd
    simp only [List.map_cons, List.foldl_cons,
      digitVal_digitChar d (hd d (List.mem_cons_self _ _))]
    exact ih (10 * a + d) (fun x hx => hd x (List.mem_cons_of_mem _ hx))

theorem foldr_horner (ds : List Nat) :
    ds.foldr (fun d acc => 10 * acc + d) 0 = Nat.ofDigits 10 ds := by
  induction ds with
  | nil => rfl
  | cons d rest ih =>
    rw [List.foldr_cons, ih, Nat.ofDigits_cons]
    ring

theorem parseNatKey_natKeyStr (n : Nat) : parseNatKey (natKeyStr n) = some n := by
  by_cases h0 : n = 0
  · subst h0
    decide
  · unfold natKeyStr
    rw [if_neg h0]
    unfold parseNatKey
    have hne : Nat.digits 10 n ≠ [] := Nat.digits_ne_nil_iff_ne_zero.mpr h0
    have hemp : ¬(((Nat.digits 10 n).map
        (fun d => Char.ofNat (48 + d))).reverse).isEmpty := by
      simp [List.isEmpty_iff, hne]
    rw [if_neg hemp, ← List.map_reverse,
      parse_fold_digits _ 0
        (fun d hd => Nat.digits_lt_base (by norm_num)
          (List.mem_reverse.mp hd)),
      List.foldl_reverse, foldr_horner, Nat.ofDigits_digits]

theorem decodeEntry_save (entries : List (Nat × Blob))
    (h : ∀ q ∈ entries, ∀ b ∈ q.2, b < 256) :
    decodeEntry (entries.map (fun q => (natKeyStr q.1, bytesHex q.2))) =
      some entries := by
  induction entries with
  | nil => rfl
  | cons q rest ih =>
    simp only [List.map_cons, decodeEntry, parseNatKey_natKeyStr,
      bytesFromHex_bytesHex q.2 (h q (List.mem_cons_self _ _)),
      ih (fun x hx => h x (List.mem_cons_of_mem _ hx))]

/-- C6. Bonding round-trip: saving any well-formed bonding database
(blobs hex-encoded, integer keys rendered as decimal strings by the JSON
encoder) and loading it back (`int` on keys, `bytes.fromhex` on values)
returns the database unchanged. -/
theorem decodeDb_save (db : BondingDb) (h : WellFormedDb db) :
    decodeDb (save_bonding_db db) = some db := by
  unfold save_bonding_db
  induction db with
  | nil => rfl
  | cons p rest ih =>
    simp only [List.map_cons, decodeDb,
      decodeEntry_save p.2 (h p (List.mem_cons_self _ _)),
      ih (fun x hx => h x (List.mem_cons_of_mem _ hx))]

theorem bonding_round_trip (db : BondingDb) (h : WellFormedDb db) :
    load_bonding_db (.parsed (save_bonding_db db)) = some db :=
  decodeDb_save db h

/-- Witness for C6: a concrete database with two peers and blobs covering
byte extremes round-trips unchanged. -/
theorem bonding_round_trip_witness :
    load_bonding_db (.parsed (save_bonding_db
        [("AA:BB:CC:DD:EE:FF", [(1, [0, 255, 16]), (10, [])]),
         ("11:22:33:44:55:66", [(0, [171, 205])])])) =
      some [("AA:BB:CC:DD:EE:FF", [(1, [0, 255, 16]), (10, [])]),
            ("11:22:33:44:55:66", [(0, [171, 205])])] :=
  bonding_round_trip _ (by unfold WellFormedDb; decide)

/-- C7 counterexample: a file that exists but holds corrupt contents (here
a syntactically valid JSON object whose value `"zz"` is not hex) makes
`load_bonding_db` raise (`none`) — it does not return the empty mapping.
An unparseable file (`json.load` failure) raises as well. -/
theorem load_corrupt_counterexample :
    load_bonding_db (.parsed [("aa", [(['0'], ['z', 'z'])])]) = none ∧
    load_bonding_db .invalidJson = none ∧
    (none : Option BondingDb) ≠ some [] := by
  refine ⟨by decide, rfl, by simp⟩

/-- C7 amended: only the missing-file case is handled — `load_bonding_db`
returns the empty mapping when the store file does not exist, but a file
with corrupt contents (unparseable JSON, a non-integer key, or a non-hex
value) makes it raise. -/
theorem load_missing_empty_corrupt_raises :
    load_bonding_db .missing = some [] ∧
    load_bonding_db .invalidJson = none ∧
    load_bonding_db (.parsed [("aa", [(['x'], ['0', '0'])])]) = none ∧
    load_bonding_db (.parsed [("aa", [(['0'], ['z', 'z'])])]) = none := by
  refine ⟨rfl, rfl, by decide, by decide⟩

/-!
## Bonding-flush debounce (`NetworkCoordinator.bonding_db_task`)

`bonding_db_task` (central.py lines 608-615) loops: wait until the dirty
flag is set, sleep a fixed delay, clear the flag, write the file.  The
loop is modelled in discrete time over the sorted list of mutation times
(the instants `event_handler` sets `_bonding_db_dirty`): the wait returns
at the first unconsumed mutation time, the write happens a fixed delay `D`
later, and every mutation before that write time is absorbed by it (the
flag is cleared then, and the database saved at that point already
contains those mutations).
-/

/-- Write times of `bonding_db_task`: from current time `cur`, the wait
returns at the first pending mutation, the write fires a fixed `D` later,
and all mutations before that write time are consumed by it. -/
def flushTimes (D : Nat) : Nat → List Nat → List Nat
  | _, [] => []
  | cur, t :: ts =>
    (max cur t + D) ::
      flushTimes D (max cur t + D) (ts.filter (fun x => max cur t + D ≤ x))
termination_by _ ms => ms.length
decreasing_by
  have hle := List.length_filter_le (fun x => max cur t + D ≤ x) ts
  simp only [List.length_cons]
  omega

/-- Modelled from the spec: the debounce the spec describes, whose delay
restarts on every new mutation — each mutation arriving before the current
deadline pushes the deadline to that mutation plus `D`.  `burstEnd`
returns the final deadline and the mutations left for later bursts. -/
def burstEnd (D : Nat) : Nat → List Nat → Nat × List Nat
  | deadline, [] => (deadline, [])
  | deadline, t :: ts =>
    if t < deadline then burstEnd D (t + D) ts else (deadline, t :: ts)

theorem burstEnd_length_le (D : Nat) (deadline : Nat) (ms : List Nat) :
    (burstEnd D deadline ms).2.length ≤ ms.length := by
  induction ms generalizing deadline with
  | nil => simp [burstEnd]
  | cons t ts ih =>
    unfold burstEnd
    by_cases h : t < deadline
    · rw [if_pos h]
      exact le_trans (ih (t + D)) (Nat.le_succ _)
    · rw [if_neg h]

/-- Modelled from the spec: write times under the restart-on-mutation
debounce. -/
def restartFlushTimes (D : Nat) : Nat → List Nat → List Nat
  | _, [] => []
  | cur, t :: ts =>
    (burstEnd D (max cur t + D) ts).1 ::
      restartFlushTimes D (burstEnd D (max cur t + D) ts).1
        (burstEnd D (max cur t + D) ts).2
termination_by _ ms => ms.length
decreasing_by
  have hle := burstEnd_length_le D (max cur t + D) ts
  simp only [List.length_cons]
  omega

theorem flushTimes_nil (D cur : Nat) : flushTimes D cur [] = [] := by
  rw [flushTimes.eq_def]

theorem flushTimes_cons (D cur t : Nat) (ts : List Nat) :
    flushTimes D cur (t :: ts) =
      (max cur t + D) ::
        flushTimes D (max cur t + D)
          (ts.filter (fun x => max cur t + D ≤ x)) := by
  rw [flushTimes.eq_def]

theorem restartFlushTimes_nil (D cur : Nat) :
    restartFlushTimes D cur [] = [] := by
  rw [restartFlushTimes.eq_def]

theorem restartFlushTimes_cons (D cur t : Nat) (ts : List Nat) :
    restartFlushTimes D cur (t :: ts) =
      (burstEnd D (max cur t + D) ts).1 ::
        restartFlushTimes D (burstEnd D (max cur t + D) ts).1
          (burstEnd D (max cur t + D) ts).2 := by
  rw [restartFlushTimes.eq_def]

/-- C8 counterexample: with delay 10 and mutations at times 0 and 9, the
code writes at time 10 — a fixed delay after the burst's FIRST dirty
marking — whereas the claimed restart-on-every-mutation debounce would
write at 19; the flush therefore does not fire a fixed delay after the
store was last marked dirty. -/
theorem debounce_counterexample :
    flushTimes 10 0 [0, 9] = [10] ∧
    restartFlushTimes 10 0 [0, 9] = [19] ∧
    flushTimes 10 0 [0, 9] ≠ restartFlushTimes 10 0 [0, 9] := by
  have h1 : flushTimes 10 0 [0, 9] = [10] := by
    norm_num [flushTimes_cons, flushTimes_nil]
  have h2 : restartFlushTimes 10 0 [0, 9] = [19] := by
    norm_num [restartFlushTimes_cons, restartFlushTimes_nil, burstEnd]
  exact ⟨h1, h2, by rw [h1, h2]; simp⟩

/-- C8 amended: any burst of N ≥ 1 mutations that all fall within the
fixed delay `D` of the burst's first mutation produces exactly one write,
and that write fires exactly `D` after the FIRST dirty marking of the
burst; the delay does not restart on later mutations. -/
theorem bonding_debounce (D t : Nat) (ts : List Nat)
    (h : ∀ x ∈ ts, t ≤ x ∧ x < t + D) :
    flushTimes D 0 (t :: ts) = [t + D] := by
  rw [flushTimes_cons]
  have hmax : max 0 t = t := Nat.zero_max t
  rw [hmax]
  have hfil : ts.filter (fun x => t + D ≤ x) = [] := by
    rw [List.filter_eq_nil_iff]
    intro x hx
    have hx2 := (h x hx).2
    simp only [decide_eq_true_eq]
    omega
  rw [hfil, flushTimes_nil]

/-- Witness for C8 amended: three mutations at times 2, 3 and 4 with delay
10 produce the single write at time 12. -/
theorem bonding_debounce_witness :
    flushTimes 10 0 [2, 3, 4] = [12] :=
  bonding_debounce 10 2 [3, 4] (by decide)

/-!
## Scan/analysis mutual exclusion (`_ap_lock`)

`scan_task` (central.py lines 587-593) and `analyzer_task` (lines
595-606) both enter their critical procedure (`self.scan()` /
`self.analyze_connection(...)`) only inside `with self._ap_lock:`.  The
two threads are modelled as a three-phase loop each — idle, waiting on the
lock, inside the critical section — over one mutex. -/

/-- Phase of one of the two worker threads with respect to `_ap_lock`. -/
inductive Phase where
  | idle
  | waiting
  | critical
  deriving Repr, DecidableEq

/-- Joint state of `_ap_lock` and the two tasks guarding scan and
connection analysis. -/
structure GateState where
  lockHeld : Bool
  scanPhase : Phase
  analyzerPhase : Phase
  deriving Repr, DecidableEq

/-- Interleaved execution of `scan_task` and `analyzer_task`: a task asks
for the lock, acquires it only when free (`with self._ap_lock`), runs its
procedure, and releases on exit. -/
inductive GateStep : GateState → GateState → Prop where
  | scanRequest (s : GateState) (h : s.scanPhase = .idle) :
      GateStep s { s with scanPhase := .waiting }
  | scanAcquire (s : GateState) (h : s.scanPhase = .waiting)
      (hl : s.lockHeld = false) :
      GateStep s { s with scanPhase := .critical, lockHeld := true }
  | scanRelease (s : GateState) (h : s.scanPhase = .critical) :
      GateStep s { s with scanPhase := .idle, lockHeld := false }
  | analyzerRequest (s : GateState) (h : s.analyzerPhase = .idle) :
      GateStep s { s with analyzerPhase := .waiting }
  | analyzerAcquire (s : GateState) (h : s.analyzerPhase = .waiting)
      (hl : s.lockHeld = false) :
      GateStep s { s with analyzerPhase := .critical, lockHeld := true }
  | analyzerRelease (s : GateState) (h : s.analyzerPhase = .critical) :
      GateStep s { s with analyzerPhase := .idle, lockHeld := false }

/-- Reachable joint states: both tasks start outside their critical
sections with the lock free. -/
inductive GateReach : GateState → Prop where
  | init : GateReach ⟨false, .idle, .idle⟩
  | step {s s' : GateState} : GateReach s → GateStep s s' → GateReach s'

/-- The inductive invariant: a task in its critical section holds the
lock, and the two critical sections exclude each other. -/
def GateInv (s : GateState) : Prop :=
  (s.scanPhase = .critical → s.lockHeld = true) ∧
  (s.analyzerPhase = .critical → s.lockHeld = true) ∧
  ¬(s.scanPhase = .critical ∧ s.analyzerPhase = .critical)

theorem gateInv_step {u v : GateState} (hi : GateInv u) (st : GateStep u v) :
    GateInv v := by
  obtain ⟨lk, sp, ap⟩ := u
  obtain ⟨i1, i2, i3⟩ := hi
  cases st with
  | scanRequest h =>
    exact ⟨by simp, i2, by rintro ⟨hc, -⟩; simp at hc⟩
  | scanAcquire h hl =>
    refine ⟨fun _ => rfl, fun _ => rfl, ?_⟩
    rintro ⟨-, hc⟩
    have := i2 hc
    rw [hl] at this
    cases this
  | scanRelease h =>
    exact ⟨by simp, fun hc => absurd ⟨h, hc⟩ i3,
      by rintro ⟨hc, -⟩; simp at hc⟩
  | analyzerRequest h =>
    exact ⟨i1, by simp, by rintro ⟨-, hc⟩; simp at hc⟩
  | analyzerAcquire h hl =>
    refine ⟨fun _ => rfl, fun _ => rfl, ?_⟩
    rintro ⟨hc, -⟩
    have := i1 hc
    rw [hl] at this
    cases this
  | analyzerRelease h =>
    exact ⟨fun hc => absurd ⟨hc, h⟩ i3, by simp,
      by rintro ⟨-, hc⟩; simp at hc⟩

theorem gateInv_reach (s : GateState) (h : GateReach s) : GateInv s := by
  induction h with
  | init => exact ⟨by simp, by simp, by simp⟩
  | step _ st ih => exact gateInv_step ih st

/-- C9. Mutual exclusion: in every reachable interleaving of `scan_task`
and `analyzer_task`, the scan procedure and the connection-analysis
procedure are never both in progress — both enter only through
`_ap_lock`. -/
theorem scan_analysis_mutual_exclusion (s : GateState) (h : GateReach s) :
    ¬(s.scanPhase = .critical ∧ s.analyzerPhase = .critical) :=
  (gateInv_reach s h).2.2

/-- Witness for C9: the state in which the scan task has just acquired
the lock while the analyzer task waits is reachable and satisfies the
exclusion. -/
theorem scan_analysis_mutual_exclusion_witness :
    ¬((⟨true, .critical, .waiting⟩ : GateState).scanPhase = .critical ∧
      (⟨true, .critical, .waiting⟩ : GateState).analyzerPhase = .critical) :=
  scan_analysis_mutual_exclusion ⟨true, .critical, .waiting⟩
    (GateReach.step
      (GateReach.step
        (GateReach.step GateReach.init
          (GateStep.scanRequest ⟨false, .idle, .idle⟩ rfl))
        (GateStep.analyzerRequest ⟨false, .waiting, .idle⟩ rfl))
      (GateStep.scanAcquire ⟨false, .waiting, .waiting⟩ rfl rfl))

/-!
## System-wide connection uniqueness (handover protocol)

Global view of all access points' `connections` dicts.  Crucially,
`AccessPoint.disconnect` (central.py lines 208-218) only issues
`lib.bt.connection.close`; the dict entry is deleted later, by
`bt_evt_connection_closed` (line 305) when the closed event is delivered
on the access point's own event thread.  A `Link` therefore carries a
`closing` marker: `true` once the close command was issued (or the radio
link was lost) while the entry still sits in the dict awaiting its closed
event.

The `connect` step carries the environment assumption under which the
coordinator issues connects: a connect targets an advertising peer.
`scan` connects to peers from discovery reports — a peer advertises
connectably only while it has no open link, so any entry the coordinator
still holds for it is a stale one whose close is pending — and
`analyze_connection` connects immediately after calling `disconnect` on
the peer's current connection, which marks that entry closing.  In both
cases every remaining entry for the peer is closing. -/

/-- One entry of some access point's `connections` dict, globally keyed by
(access point id, connection handle), with its peer address and whether a
close has been issued but not yet confirmed by the closed event. -/
structure Link where
  ap : Nat
  handle : Nat
  addr : String
  closing : Bool
  deriving Repr, DecidableEq

/-- All access points' connection entries. -/
abbrev NetState := List Link

/-- `AccessPoint.disconnect`: issue the close command for one entry; the
entry stays in the dict, now awaiting its closed event. -/
def markClosing (s : NetState) (ap handle : Nat) : NetState :=
  s.map (fun l =>
    if l.ap = ap ∧ l.handle = handle then
      { l with closing := true }
    else l)

/-- `bt_evt_connection_closed`: the closed event deletes the entry. -/
def removeLink (s : NetState) (ap handle : Nat) : NetState :=
  s.filter (fun l => ¬(l.ap = ap ∧ l.handle = handle))

/-- Entries (closing or not) held for a peer address anywhere in the
system. -/
def entryCount (s : NetState) (addr : String) : Nat :=
  s.countP (fun l => l.addr = addr)

/-- Entries held for a peer address whose close has not been issued. -/
def activeCount (s : NetState) (addr : String) : Nat :=
  s.countP (fun l => l.addr = addr ∧ l.closing = false)

/-- Global transitions of the connection bookkeeping.  `connect` inserts
the new dict entry (central.py line 199); its hypothesis is the
environment assumption that connects only target advertising peers, so
every entry still held for that address is closing. -/
inductive NetStep : NetState → NetState → Prop where
  | connect (s : NetState) (ap handle : Nat) (addr : String)
      (hADV : ∀ l ∈ s, l.addr = addr → l.closing = true) :
      NetStep s (s ++ [⟨ap, handle, addr, false⟩])
  | disconnect (s : NetState) (ap handle : Nat) :
      NetStep s (markClosing s ap handle)
  | closedEvt (s : NetState) (ap handle : Nat) :
      NetStep s (removeLink s ap handle)

/-- Reachable global states: no connections at startup, then any
interleaving of connects, disconnects and closed events. -/
inductive NetReach : NetState → Prop where
  | init : NetReach []
  | step {s s' : NetState} : NetReach s → NetStep s s' → NetReach s'

/-- The two-entry state reached mid-handover: the old connection to peer
`aa` on AP 0 (close issued, closed event pending) and the fresh
connection on AP 1. -/
def handoverState : NetState := [⟨0, 1, "aa", true⟩, ⟨1, 2, "aa", false⟩]

theorem handoverState_reachable : NetReach handoverState := by
  have s1 : NetReach [⟨0, 1, "aa", false⟩] :=
    NetReach.step NetReach.init (NetStep.connect [] 0 1 "aa" (by simp))
  have e2 : markClosing [⟨0, 1, "aa", false⟩] 0 1 = [⟨0, 1, "aa", true⟩] := by
    decide
  have s2 : NetReach [⟨0, 1, "aa", true⟩] :=
    e2 ▸ NetReach.step s1 (NetStep.disconnect _ 0 1)
  exact NetReach.step s2 (NetStep.connect [⟨0, 1, "aa", true⟩] 1 2 "aa"
    (by decide))

/-- C1 counterexample: a reachable state in which TWO map entries for the
same peer address coexist — during handover `disconnect` only issues the
close command, the old entry is deleted later by the closed event, while
`connect` on the best access point inserts the new entry immediately. -/
theorem handover_two_entries_coexist :
    NetReach handoverState ∧ entryCount handoverState "aa" = 2 :=
  ⟨handoverState_reachable, by decide⟩

theorem activeCount_zero_of_all_closing (s : NetState) (addr : String)
    (h : ∀ l ∈ s, l.addr = addr → l.closing = true) :
    activeCount s addr = 0 := by
  unfold activeCount
  rw [List.countP_eq_zero]
  intro l hl
  simp only [decide_eq_true_eq, not_and]
  intro ha
  rw [h l hl ha]
  simp

theorem activeCount_markClosing_le (s : NetState) (ap handle : Nat)
    (addr : String) :
    activeCount (markClosing s ap handle) addr ≤ activeCount s addr := by
  unfold activeCount markClosing
  rw [List.countP_map]
  refine List.countP_mono_left ?_
  intro l _ hp
  simp only [Function.comp] at hp
  by_cases hc : l.ap = ap ∧ l.handle = handle
  · simp [hc] at hp
  · simp only [hc, if_false] at hp
    exact hp

theorem activeCount_removeLink_le (s : NetState) (ap handle : Nat)
    (addr : String) :
    activeCount (removeLink s ap handle) addr ≤ activeCount s addr :=
  (List.filter_sublist s).countP_le _

/-- C1 amended: in every reachable global state, each peer address has at
most one connection entry that is not closing; during handover the old
entry may coexist with the new one, but only with its close already
issued and its closed event pending. -/
theorem peer_uniqueness (s : NetState) (h : NetReach s) (addr : String) :
    activeCount s addr ≤ 1 := by
  induction h with
  | init => simp [activeCount]
  | step _ st ih =>
    cases st with
    | connect ap handle addr' hADV =>
      rename_i u _
      unfold activeCount
      rw [List.countP_append]
      by_cases ha : addr' = addr
      · subst ha
        have h0 : activeCount u addr' = 0 :=
          activeCount_zero_of_all_closing u addr' hADV
        unfold activeCount at h0
        rw [h0]
        simp [List.countP_cons]
      · have h1 : List.countP
            (fun l => decide (l.addr = addr ∧ l.closing = false))
            [(⟨ap, handle, addr', false⟩ : Link)] = 0 := by
          rw [List.countP_eq_zero]
          intro l hl
          rw [List.mem_singleton] at hl
          subst hl
          simp [ha]
        rw [h1]
        exact ih
    | disconnect ap handle =>
      exact le_trans (activeCount_markClosing_le _ ap handle addr) ih
    | closedEvt ap handle =>
      exact le_trans (activeCount_removeLink_le _ ap handle addr) ih

/-- Witness for C1 amended: the mid-handover state holds exactly one
non-closing entry for peer `aa`. -/
theorem peer_uniqueness_witness : activeCount handoverState "aa" ≤ 1 :=
  peer_uniqueness handoverState handoverState_reachable "aa"

end Roaming
